import Mathlib

/-!
Verification of `fasta_kmer_counter.py`.

The script builds a k-mer frequency table from a FASTA file:

* `parse_fasta` (fallback branch) scans the file line by line, starting a
  record at each line beginning with `>` and concatenating the stripped
  sequence lines that follow;
* `build_kmer_table` uppercases each record's sequence, slides a window of
  length `k` over it (`range(len(seq) - k + 1)` starting offsets) and counts
  every window whose characters all lie in `set("ACGT")` in a `Counter`;
* `write_kmer_table` writes one `<kmer><TAB><count><NL>` line per entry of
  `sorted(counter.items())`.

The embedding below models sequences as `String`/`List Char`, the `Counter`
as the multiplicity function of the list of accepted windows, and file
contents as a list of newline-free lines.
-/

namespace FastaKmer

/-- Permitted symbols: the script's `allowed = set("ACGT")`. -/
def allowed : List Char := ['A', 'C', 'G', 'T']

/-- Uppercased character list of a sequence, modelling `seq.upper()`
applied characterwise (ASCII case folding). -/
def upperSeq (s : String) : List Char := s.data.map Char.toUpper

/-- Number of window starting offsets: Python's `range(len(seq) - k + 1)` has
`max 0 (len - k + 1)` elements for `k ≥ 0`, i.e. `len + 1 - k` in truncated
natural subtraction. -/
def numWindows (len k : Nat) : Nat := len + 1 - k

/-- All windows `seq[i : i+k]` of a character list, in offset order. -/
def windows (k : Nat) (s : List Char) : List (List Char) :=
  (List.range (numWindows s.length k)).map fun i => (s.drop i).take k

/-- Accepted k-mers of one record's sequence: the windows passing the test
`set(kmer) <= allowed` of the inner loop of `build_kmer_table`. -/
def kmersOf (k : Nat) (seq : String) : List (List Char) :=
  (windows k (upperSeq seq)).filter fun w => w.all fun c => c ∈ allowed

/-- Concatenated list of accepted k-mers over all records, modelling the
`for _, seq in parse_fasta(...)` loop of `build_kmer_table`. -/
def allKmers (recs : List (String × String)) (k : Nat) : List (List Char) :=
  recs.flatMap fun r => kmersOf k r.2

/-- The `Counter` returned by `build_kmer_table`, as the map sending each
candidate key to its multiplicity. A `Counter` that is only ever incremented
holds exactly the keys of positive multiplicity. -/
def build_kmer_table (recs : List (String × String)) (k : Nat) : List Char → Nat :=
  fun w => (allKmers recs k).count w

/-- Key set of the table: the accepted k-mers with multiplicity removed. -/
def tableKeys (recs : List (String × String)) (k : Nat) : List (List Char) :=
  (allKmers recs k).dedup

/-- Whitespace stripping of Python's `str.strip()`: drop whitespace from both
ends of the character list. -/
def stripChars (l : List Char) : List Char :=
  (((l.dropWhile Char.isWhitespace).reverse).dropWhile Char.isWhitespace).reverse

/-- Test `line.startswith(">")`: the first character is `>`. -/
def lineIsHeader (l : List Char) : Bool :=
  match l with
  | [] => false
  | c :: _ => c == '>'

/-- Line loop of the fallback `parse_fasta`. State: the current header if a
record is open (`header`), and the stripped sequence lines accumulated so far
(`parts`, joined by `"".join(seq_parts)` when the record is emitted). A blank
line is skipped; a line starting with `>` emits the open record, if any, and
opens a new one named by `line[1:].strip()`; any other line is stripped and
appended to the open record's parts. At end of input the open record, if any,
is emitted. -/
def parseLoop : Option (List Char) → List (List Char) → List (List Char) →
    List (String × String)
  | none, _, [] => []
  | some h, parts, [] => [(⟨h⟩, ⟨parts.flatten⟩)]
  | header, parts, line :: rest =>
    if line = [] then
      parseLoop header parts rest
    else if lineIsHeader line then
      match header with
      | none => parseLoop (some (stripChars (line.drop 1))) [] rest
      | some h => (⟨h⟩, ⟨parts.flatten⟩) :: parseLoop (some (stripChars (line.drop 1))) [] rest
    else
      parseLoop header (parts ++ [stripChars line]) rest

/-- Fallback FASTA parser applied to a file given as its list of newline-free
lines (each `line.rstrip("\n")` already applied); yields `(header, sequence)`
records in file order. -/
def parse_fasta (lines : List (List Char)) : List (String × String) :=
  parseLoop none [] lines

/-- Comparison used by `sorted(counter.items())`: Python tuples compare
lexicographically, first by key (string order, which on `List Char` is the
lexicographic order `List.Lex (· < ·)` over code points) and then by count. -/
def itemLe (a b : List Char × Nat) : Prop :=
  a.1 < b.1 ∨ (a.1 = b.1 ∧ a.2 ≤ b.2)

instance : DecidableRel itemLe := fun a b => by
  unfold itemLe
  infer_instance

/-- Result of `sorted(counter.items())`, as a stable sort of the item list by
`itemLe`. -/
def sortItems (items : List (List Char × Nat)) : List (List Char × Nat) :=
  List.insertionSort itemLe items

/-- One output line `f"..."` of `write_kmer_table`: the k-mer, a tab, the
count, a newline. -/
def itemLine (e : List Char × Nat) : String :=
  String.mk e.1 ++ "\t" ++ toString e.2 ++ "\n"

/-- Text written by `write_kmer_table`: the concatenation of one line per
item, in sorted item order. -/
def write_kmer_table (items : List (List Char × Nat)) : String :=
  String.join ((sortItems items).map itemLine)

instance : IsTotal (List Char × Nat) itemLe :=
  ⟨fun a b => by
    unfold itemLe
    rcases lt_trichotomy a.1 b.1 with h | h | h
    · exact Or.inl (Or.inl h)
    · rcases Nat.le_total a.2 b.2 with h2 | h2
      · exact Or.inl (Or.inr ⟨h, h2⟩)
      · exact Or.inr (Or.inr ⟨h.symm, h2⟩)
    · exact Or.inr (Or.inl h)⟩

instance : IsTrans (List Char × Nat) itemLe :=
  ⟨fun a b c hab hbc => by
    unfold itemLe at hab hbc ⊢
    rcases hab with h1 | ⟨e1, le1⟩ <;> rcases hbc with h2 | ⟨e2, le2⟩
    · exact Or.inl (h1.trans h2)
    · exact Or.inl (lt_of_lt_of_eq h1 e2)
    · exact Or.inl (lt_of_eq_of_lt e1 h2)
    · exact Or.inr ⟨e1.trans e2, le1.trans le2⟩⟩

/-- Every accepted k-mer is a length-`k` window over the permitted alphabet. -/
theorem mem_allKmers_spec (recs : List (String × String)) (k : Nat) (w : List Char)
    (hw : w ∈ allKmers recs k) :
    w.length = k ∧ (w.all fun c => c ∈ allowed) = true := by
  rcases List.mem_flatMap.mp hw with ⟨r, _, hr⟩
  rcases List.mem_filter.mp hr with ⟨hwin, hall⟩
  refine ⟨?_, hall⟩
  rcases List.mem_map.mp hwin with ⟨i, hi, rfl⟩
  have hi' := List.mem_range.mp hi
  simp only [numWindows] at hi'
  rw [List.length_take, List.length_drop]
  omega

end FastaKmer

namespace FastaKmer

/-- C1: every key of the table built by `build_kmer_table` (a k-mer of nonzero
multiplicity) has length exactly `k` and consists only of characters in
`{A, C, G, T}`. -/
theorem table_keys_invariant (recs : List (String × String)) (k : Nat)
    (hk : 1 ≤ k) (w : List Char) (hw : build_kmer_table recs k w ≠ 0) :
    w.length = k ∧ (w.all fun c => c ∈ allowed) = true :=
  mem_allKmers_spec recs k w (List.count_pos_iff.mp (Nat.pos_of_ne_zero hw))

/-- Witness for C1 at the input `[("seq1", "ACGTACGT")]`, `k = 3`, key `ACG`. -/
theorem table_keys_invariant_witness :
    (1 ≤ 3 ∧ build_kmer_table [("seq1", "ACGTACGT")] 3 ['A', 'C', 'G'] ≠ 0)
    ∧ ((['A', 'C', 'G'] : List Char).length = 3
        ∧ ((['A', 'C', 'G'] : List Char).all fun c => c ∈ allowed) = true) :=
  ⟨⟨by decide, by decide⟩,
    table_keys_invariant [("seq1", "ACGTACGT")] 3 (by decide) ['A', 'C', 'G'] (by decide)⟩

/-- C2: on the single record `("seq1", "ACGTACGT")` with `k = 3` the table is
exactly `ACG ↦ 2, CGT ↦ 2, GTA ↦ 1, TAC ↦ 1`, and these four are its only
keys. -/
theorem table_of_ACGTACGT :
    (build_kmer_table [("seq1", "ACGTACGT")] 3 ['A', 'C', 'G'] = 2
      ∧ build_kmer_table [("seq1", "ACGTACGT")] 3 ['C', 'G', 'T'] = 2
      ∧ build_kmer_table [("seq1", "ACGTACGT")] 3 ['G', 'T', 'A'] = 1
      ∧ build_kmer_table [("seq1", "ACGTACGT")] 3 ['T', 'A', 'C'] = 1)
    ∧ (tableKeys [("seq1", "ACGTACGT")] 3).Perm
        [['A', 'C', 'G'], ['C', 'G', 'T'], ['G', 'T', 'A'], ['T', 'A', 'C']] := by
  decide

/-- C6: on the record `("seq1", "ACGNACGT")` with `k = 3` every window meeting
the `N` is dropped without error: the table is exactly `ACG ↦ 2, CGT ↦ 1`. -/
theorem table_of_ACGNACGT :
    (build_kmer_table [("seq1", "ACGNACGT")] 3 ['A', 'C', 'G'] = 2
      ∧ build_kmer_table [("seq1", "ACGNACGT")] 3 ['C', 'G', 'T'] = 1)
    ∧ (tableKeys [("seq1", "ACGNACGT")] 3).Perm [['A', 'C', 'G'], ['C', 'G', 'T']] := by
  decide

/-- Summing a pointwise sum of two maps splits into two sums. -/
theorem sum_map_add_split {α : Type} (l : List α) (f g : α → Nat) :
    (l.map fun a => f a + g a).sum = (l.map f).sum + (l.map g).sum := by
  induction l with
  | nil => simp
  | cons a t ih => simp [ih]; omega

/-- Over a duplicate-free list containing `b`, the indicator of `b` sums to 1. -/
theorem sum_map_indicator {α : Type} [BEq α] [LawfulBEq α] (keys : List α) (b : α)
    (hnd : keys.Nodup) (hb : b ∈ keys) :
    (keys.map fun a => if b == a then 1 else 0).sum = 1 := by
  induction keys with
  | nil => cases hb
  | cons a t ih =>
    by_cases hba : b = a
    · subst hba
      have hnotin : b ∉ t := (List.nodup_cons.mp hnd).1
      have hz : (t.map fun x => if b == x then 1 else 0).sum = 0 := by
        apply List.sum_eq_zero
        intro x hx
        rcases List.mem_map.mp hx with ⟨y, hy, rfl⟩
        have hby : ¬(b == y) = true := fun e => hnotin (eq_of_beq e ▸ hy)
        simp [hby]
      rw [List.map_cons, List.sum_cons, beq_self_eq_true, if_pos rfl, hz]
    · have hbt : b ∈ t := by
        rcases List.mem_cons.mp hb with h | h
        · exact absurd h hba
        · exact h
      have hba' : ¬(b == a) = true := by simpa using hba
      rw [List.map_cons, List.sum_cons, if_neg hba',
        ih (List.nodup_cons.mp hnd).2 hbt]

/-- Counting each element of a duplicate-free covering key list partitions the
length of a list. -/
theorem sum_count_over_keys {α : Type} [BEq α] [LawfulBEq α] (keys : List α) :
    ∀ l : List α, keys.Nodup → (∀ a ∈ l, a ∈ keys) →
      (keys.map fun a => l.count a).sum = l.length := by
  intro l
  induction l with
  | nil => intro _ _; simp
  | cons b t ih =>
    intro hnd hcov
    have hcount : ∀ a : α, (b :: t).count a = t.count a + if b == a then 1 else 0 := by
      intro a
      rw [List.count_cons]
    calc (keys.map fun a => (b :: t).count a).sum
        = (keys.map fun a => t.count a + if b == a then 1 else 0).sum := by
          apply congrArg
          apply List.map_congr_left
          intro a _
          exact hcount a
      _ = (keys.map fun a => t.count a).sum
            + (keys.map fun a => if b == a then 1 else 0).sum :=
          sum_map_add_split keys _ _
      _ = t.length + 1 := by
          rw [ih hnd (fun a ha => hcov a (List.mem_cons_of_mem b ha)),
            sum_map_indicator keys b hnd (hcov b (List.mem_cons_self b t))]
      _ = (b :: t).length := by simp

/-- Length of a concatenation of sublists is the sum of their lengths. -/
theorem length_flatMap_sum {α β : Type} (l : List α) (f : α → List β) :
    (l.flatMap f).length = (l.map fun a => (f a).length).sum := by
  induction l with
  | nil => simp
  | cons a t ih => simp [List.flatMap_cons, ih]

end FastaKmer

namespace FastaKmer

/-- C3: the counts of the table built by `build_kmer_table` sum to the total
number of length-`k` windows, across all records after uppercasing, whose
characters all lie in `{A, C, G, T}` (the length of each record's accepted
k-mer list). -/
theorem table_counts_sum (recs : List (String × String)) (k : Nat) (hk : 1 ≤ k) :
    ((tableKeys recs k).map (build_kmer_table recs k)).sum
      = (recs.map fun r => (kmersOf k r.2).length).sum := by
  have h1 : ((allKmers recs k).dedup.map fun w => (allKmers recs k).count w).sum
      = (allKmers recs k).length :=
    sum_count_over_keys ((allKmers recs k).dedup) (allKmers recs k)
      (List.nodup_dedup _) (fun a ha => List.mem_dedup.mpr ha)
  have h2 : (recs.flatMap fun r => kmersOf k r.2).length
      = (recs.map fun r => (kmersOf k r.2).length).sum :=
    length_flatMap_sum recs fun r => kmersOf k r.2
  exact h1.trans h2

/-- Witness for C3 at the input `[("seq1", "ACGNACGT")]`, `k = 3`. -/
theorem table_counts_sum_witness :
    1 ≤ 3
    ∧ ((tableKeys [("seq1", "ACGNACGT")] 3).map (build_kmer_table [("seq1", "ACGNACGT")] 3)).sum
      = ([("seq1", "ACGNACGT")].map fun r => (kmersOf 3 r.2).length).sum :=
  ⟨by decide, table_counts_sum [("seq1", "ACGNACGT")] 3 (by decide)⟩

/-- C7: permuting the records leaves the table unchanged. -/
theorem table_perm_invariant (recs₁ recs₂ : List (String × String)) (k : Nat)
    (hp : recs₁.Perm recs₂) :
    build_kmer_table recs₁ k = build_kmer_table recs₂ k := by
  funext w
  simp only [build_kmer_table, allKmers]
  exact (hp.flatMap_right fun r => kmersOf k r.2).countP_eq _

/-- Witness for C7 with two records swapped, `k = 2`. -/
theorem table_perm_invariant_witness :
    ([("a", "ACGT"), ("b", "TTA")].Perm [("b", "TTA"), ("a", "ACGT")])
    ∧ build_kmer_table [("a", "ACGT"), ("b", "TTA")] 2
      = build_kmer_table [("b", "TTA"), ("a", "ACGT")] 2 :=
  ⟨by decide,
    table_perm_invariant [("a", "ACGT"), ("b", "TTA")] [("b", "TTA"), ("a", "ACGT")] 2 (by decide)⟩

/-- C8: a record shorter than `k` yields no k-mers, and if every record is
shorter than `k` the table is empty — no error in either case. -/
theorem short_records_empty (k : Nat) (seq : String) (recs : List (String × String))
    (hk : 1 ≤ k) (hseq : seq.length < k)
    (hall : recs.all (fun r => r.2.length < k) = true) :
    kmersOf k seq = [] ∧ tableKeys recs k = [] := by
  have base : ∀ s : String, s.length < k → kmersOf k s = [] := by
    intro s hs
    have hlen : (upperSeq s).length = s.length := by
      rw [upperSeq, List.length_map]
      rfl
    have hzero : numWindows (upperSeq s).length k = 0 := by
      rw [hlen, numWindows]
      omega
    rw [kmersOf, windows, hzero]
    simp
  refine ⟨base seq hseq, ?_⟩
  have hnil : allKmers recs k = [] := by
    rw [allKmers, List.flatMap_eq_nil_iff]
    intro r hr
    exact base r.2 (by simpa using List.all_eq_true.mp hall r hr)
  rw [tableKeys, hnil]
  rfl

/-- Witness for C8 at `k = 3` with all records of length `< 3`. -/
theorem short_records_empty_witness :
    (1 ≤ 3 ∧ ("AC" : String).length < 3
      ∧ ([("a", "A"), ("b", "CG")].all (fun r => r.2.length < 3) = true))
    ∧ (kmersOf 3 "AC" = [] ∧ tableKeys [("a", "A"), ("b", "CG")] 3 = []) :=
  ⟨⟨by decide, by decide, by decide⟩,
    short_records_empty 3 "AC" [("a", "A"), ("b", "CG")] (by decide) (by decide) (by decide)⟩

/-- With `k = 0`, every one of the `len + 1` windows is the empty string and
passes the alphabet test vacuously. -/
theorem kmersOf_zero (s : String) : kmersOf 0 s = List.replicate (s.length + 1) [] := by
  rw [kmersOf, windows]
  have h1 : numWindows (upperSeq s).length 0 = s.length + 1 := by
    rw [numWindows, upperSeq, List.length_map]
    rfl
  have h2 : ((List.range (numWindows (upperSeq s).length 0)).map
      fun i => ((upperSeq s).drop i).take 0) = List.replicate (s.length + 1) [] := by
    rw [h1]
    simp
  rw [h2]
  apply List.filter_eq_self.mpr
  intro a ha
  have ha' : a = [] := List.eq_of_mem_replicate ha
  subst ha'
  rfl

/-- With `k = 0` the accepted k-mer list is one empty string per window. -/
theorem allKmers_zero (recs : List (String × String)) :
    allKmers recs 0 = List.replicate ((recs.map fun r => r.2.length + 1).sum) [] := by
  rw [allKmers]
  induction recs with
  | nil => rfl
  | cons r t ih =>
    rw [List.flatMap_cons, ih, kmersOf_zero, List.map_cons, List.sum_cons]
    exact (List.replicate_add _ _ _).symm

/-- Deduplicating a nonempty constant list leaves the single element. -/
theorem dedup_replicate_pos {α : Type} [DecidableEq α] (n : Nat) (a : α) (hn : 0 < n) :
    (List.replicate n a).dedup = [a] := by
  induction n with
  | zero => omega
  | succ m ih =>
    rcases Nat.eq_zero_or_pos m with h | h
    · subst h
      simp
    · rw [List.replicate_succ, List.dedup_cons_of_mem (List.mem_replicate.mpr ⟨Nat.pos_iff_ne_zero.mp h, rfl⟩),
        ih h]

end FastaKmer

namespace FastaKmer

/-- C9 (amended): `build_kmer_table` with `k = 0` does not fail; on a nonempty
record list it returns the table whose only key is the empty string, counted
once per window, i.e. `Σ (len(seq) + 1)`; and that key satisfies the length
and alphabet invariant vacuously (`length 0 = k`, no characters outside the
permitted set). -/
theorem build_k_zero (recs : List (String × String)) (hne : recs ≠ []) :
    build_kmer_table recs 0 [] = (recs.map fun r => r.2.length + 1).sum
    ∧ tableKeys recs 0 = [[]]
    ∧ (tableKeys recs 0).all
        (fun w => w.length == 0 && (w.all fun c => c ∈ allowed)) = true := by
  have hsum_pos : 0 < (recs.map fun r => r.2.length + 1).sum := by
    rcases recs with _ | ⟨r, t⟩
    · exact absurd rfl hne
    · rw [List.map_cons, List.sum_cons]
      omega
  have hkeys : tableKeys recs 0 = [[]] := by
    rw [tableKeys, allKmers_zero]
    exact dedup_replicate_pos _ _ hsum_pos
  refine ⟨?_, hkeys, ?_⟩
  · show (allKmers recs 0).count [] = _
    rw [allKmers_zero, List.count_replicate_self]
  · rw [hkeys]
    rfl

/-- Witness for C9 (amended) at the single record `("a", "ACG")`. -/
theorem build_k_zero_witness :
    ([("a", "ACG")] ≠ ([] : List (String × String)))
    ∧ (build_kmer_table [("a", "ACG")] 0 []
        = ([("a", "ACG")].map fun r => r.2.length + 1).sum
      ∧ tableKeys [("a", "ACG")] 0 = [[]]
      ∧ (tableKeys [("a", "ACG")] 0).all
          (fun w => w.length == 0 && (w.all fun c => c ∈ allowed)) = true) :=
  ⟨by decide, build_k_zero [("a", "ACG")] (by decide)⟩

/-- C9 (counterexample to the claim as stated): at `k = 0` on the record
`("s", "ACGT")` the table is built with the single key `""` — and that key
does satisfy the key invariant (its length is `0 = k` and it has no character
outside `{A, C, G, T}`), so the invariant does hold at `k = 0`. -/
theorem k_zero_invariant_holds :
    build_kmer_table [("s", "ACGT")] 0 [] = 5
    ∧ tableKeys [("s", "ACGT")] 0 = [[]]
    ∧ (tableKeys [("s", "ACGT")] 0).all
        (fun w => w.length == 0 && (w.all fun c => c ∈ allowed)) = true := by
  decide

/-- C4 (counterexample to the claim as stated): no validation of `k` exists in
the code; with `k = 0` on the input `[("s", "AC")]` a table is built and is
even nonempty, so the program does build tables for `k < 1`. -/
theorem k_zero_not_rejected :
    build_kmer_table [("s", "AC")] 0 [] = 3 ∧ tableKeys [("s", "AC")] 0 ≠ [] := by
  decide

/-- C4 (amended): the script never validates `k`; calling `build_kmer_table`
with `k = 0` raises no error and returns a table mapping the empty string to
`len(seq) + 1` for a single record. -/
theorem k_zero_builds_table (h : String) (s : String) :
    build_kmer_table [(h, s)] 0 [] = s.length + 1 := by
  show (allKmers [(h, s)] 0).count [] = _
  rw [allKmers_zero, List.count_replicate_self]
  simp

/-- C5: on a table with no duplicate keys, `write_kmer_table` writes exactly
one line per entry (the written lines are the `<kmer>\t<count>\n` lines of a
permutation of the entries, with no header line), and the entries are emitted
in strictly ascending lexicographic key order. -/
theorem write_kmer_table_sorted (items : List (List Char × Nat))
    (hnd : (items.map Prod.fst).Nodup) :
    write_kmer_table items = String.join ((sortItems items).map itemLine)
    ∧ (sortItems items).Perm items
    ∧ ((sortItems items).map Prod.fst).Pairwise (· < ·) := by
  refine ⟨rfl, List.perm_insertionSort itemLe items, ?_⟩
  have hperm : ((sortItems items).map Prod.fst).Perm (items.map Prod.fst) :=
    (List.perm_insertionSort itemLe items).map Prod.fst
  have hnd' : ((sortItems items).map Prod.fst).Nodup := hperm.nodup_iff.mpr hnd
  have hpw : (sortItems items).Pairwise itemLe :=
    List.sorted_insertionSort itemLe items
  have hne : (sortItems items).Pairwise fun a b => a.1 ≠ b.1 :=
    List.pairwise_map.mp hnd'
  rw [List.pairwise_map]
  exact (hpw.and hne).imp fun hab =>
    Or.resolve_right hab.1 fun he => absurd he.1 hab.2

/-- Witness for C5 at the two-entry table `CA ↦ 1, AC ↦ 2`. -/
theorem write_kmer_table_sorted_witness :
    ([(['C', 'A'], 1), (['A', 'C'], 2)].map Prod.fst).Nodup
    ∧ (write_kmer_table [(['C', 'A'], 1), (['A', 'C'], 2)]
        = String.join ((sortItems [(['C', 'A'], 1), (['A', 'C'], 2)]).map itemLine)
      ∧ (sortItems [(['C', 'A'], 1), (['A', 'C'], 2)]).Perm
          [(['C', 'A'], 1), (['A', 'C'], 2)]
      ∧ ((sortItems [(['C', 'A'], 1), (['A', 'C'], 2)]).map Prod.fst).Pairwise (· < ·)) :=
  ⟨by decide, write_kmer_table_sorted [(['C', 'A'], 1), (['A', 'C'], 2)] (by decide)⟩

/-- With no open record, the parts accumulated so far never influence the
parse: they could only be emitted when a record is open. -/
theorem parseLoop_parts_irrelevant (lines : List (List Char)) :
    ∀ parts parts', parseLoop none parts lines = parseLoop none parts' lines := by
  induction lines with
  | nil => intro _ _; rfl
  | cons line rest ih =>
    intro parts parts'
    by_cases hb : line = []
    · simp only [parseLoop, if_pos hb]
      exact ih parts parts'
    · by_cases hh : lineIsHeader line = true
      · simp only [parseLoop, if_neg hb, if_pos hh]
      · simp only [parseLoop, if_neg hb, if_neg hh]
        exact ih _ _

/-- Leading lines that are not header lines are consumed without starting a
record and without affecting the parse of the remaining lines. -/
theorem parseLoop_skip_leading (rest : List (List Char)) :
    ∀ pre : List (List Char), pre.all (fun l => !lineIsHeader l) = true →
      ∀ parts, parseLoop none parts (pre ++ rest) = parseLoop none [] rest := by
  intro pre
  induction pre with
  | nil =>
    intro _ parts
    exact parseLoop_parts_irrelevant rest parts []
  | cons l pre ih =>
    intro hall parts
    have hl : lineIsHeader l = false := by
      have := List.all_eq_true.mp hall l (List.mem_cons_self l pre)
      simpa using this
    have hrest : pre.all (fun l => !lineIsHeader l) = true := by
      simp only [List.all_cons, Bool.and_eq_true] at hall
      exact hall.2
    rw [List.cons_append]
    by_cases hb : l = []
    · simp only [parseLoop, if_pos hb]
      exact ih hrest parts
    · simp only [parseLoop, if_neg hb, hl]
      exact ih hrest _

end FastaKmer

namespace FastaKmer

/-- C10: non-blank (indeed arbitrary) non-header lines before the first header
line are silently discarded by the fallback parser — they produce no record,
and any table built from the parse is unchanged by their presence. -/
theorem leading_lines_ignored (pre rest : List (List Char)) (k : Nat)
    (hpre : pre.all (fun l => !lineIsHeader l) = true) :
    parse_fasta (pre ++ rest) = parse_fasta rest
    ∧ build_kmer_table (parse_fasta (pre ++ rest)) k
      = build_kmer_table (parse_fasta rest) k := by
  have hmain : parse_fasta (pre ++ rest) = parse_fasta rest :=
    parseLoop_skip_leading rest pre hpre []
  exact ⟨hmain, by rw [hmain]⟩

/-- Witness for C10: the non-header line `ACGT` before the first header is
dropped from the parse. -/
theorem leading_lines_ignored_witness :
    ["ACGT".data].all (fun l => !lineIsHeader l) = true
    ∧ (parse_fasta (["ACGT".data] ++ [">h".data, "ACGT".data])
        = parse_fasta [">h".data, "ACGT".data]
      ∧ build_kmer_table (parse_fasta (["ACGT".data] ++ [">h".data, "ACGT".data])) 2
        = build_kmer_table (parse_fasta [">h".data, "ACGT".data]) 2) :=
  ⟨by decide, leading_lines_ignored ["ACGT".data] [">h".data, "ACGT".data] 2 (by decide)⟩

end FastaKmer
